import Mathlib

/-!
Shallow embedding of the resource-control core of the task-tracking backend:
the TTL cache (CacheService), the sliding-window rate limiter (RateLimitGuard),
the queue job processor (TaskProcessorService) and the cache-invalidation helper
of TasksService.  Definitions mirror the TypeScript source; theorems settle the
specification claims about them.
-/

/-! ## TTL cache (CacheService)

The store is a JavaScript plain object, i.e. a string-keyed record that keeps
insertion order; it is modelled as an association list.  Assigning to an
existing key keeps its position, assigning a fresh key appends.
-/

/-- A cache entry: the stored value plus its absolute expiry time in
milliseconds (expiresAt = now + ttlSeconds * 1000). -/
structure CacheEntry (α : Type) where
  value : α
  expiresAt : Nat
deriving DecidableEq, Repr

/-- The whole cache store (the private field of CacheService). -/
structure CacheState (α : Type) where
  cache : List (String × CacheEntry α)
deriving DecidableEq, Repr

variable {α : Type}

/-- Object.keys of the store, in insertion order. -/
def CacheService.keys (st : CacheState α) : List String :=
  st.cache.map Prod.fst

/-- Property lookup: the JavaScript expression this.cache[key]. -/
def CacheService.findEntry (k : String) : List (String × CacheEntry α) → Option (CacheEntry α)
  | [] => none
  | (k', e) :: rest => if k' = k then some e else CacheService.findEntry k rest

/-- Property assignment: this.cache[key] = item.  An existing key keeps its
position; a fresh key is appended. -/
def CacheService.assignKey (k : String) (e : CacheEntry α) :
    List (String × CacheEntry α) → List (String × CacheEntry α)
  | [] => [(k, e)]
  | (k', e') :: rest =>
    if k' = k then (k, e) :: rest else (k', e') :: CacheService.assignKey k e rest

/-- Property removal: the JavaScript statement delete this.cache[key]. -/
def CacheService.removeKey (k : String) :
    List (String × CacheEntry α) → List (String × CacheEntry α)
  | [] => []
  | (k', e) :: rest =>
    if k' = k then CacheService.removeKey k rest
    else (k', e) :: CacheService.removeKey k rest

/-- The scan of evictOldest: starting from the first key as current best, keep
the key with the strictly smallest expiresAt seen so far. -/
def CacheService.findOldest (best : String × Nat) :
    List (String × CacheEntry α) → String × Nat
  | [] => best
  | (k, e) :: rest =>
    if e.expiresAt < best.2 then CacheService.findOldest (k, e.expiresAt) rest
    else CacheService.findOldest best rest

/-- CacheService.evictOldest: remove the entry with the lowest expiresAt
(no-op on an empty store). -/
def CacheService.evictOldest (st : CacheState α) : CacheState α :=
  match st.cache with
  | [] => st
  | (k0, e0) :: _ =>
    ⟨CacheService.removeKey (CacheService.findOldest (k0, e0.expiresAt) st.cache).1 st.cache⟩

/-- CacheService.set.  The first component is the raised error, if any (the
source throws on an invalid key and rethrows from its catch block); the second
is the store afterwards.  clone stands for this.deepClone.  MAX_CACHE_SIZE
is 1000. -/
def CacheService.set (clone : α → α) (key : String) (value : α)
    (ttlSeconds : Nat) (now : Nat) (st : CacheState α) : Option String × CacheState α :=
  if key = "" then (some "Invalid cache key", st)
  else
    let st1 := if 1000 ≤ st.cache.length then CacheService.evictOldest st else st
    let expiresAt := now + ttlSeconds * 1000
    let clonedValue := clone value
    (none, ⟨CacheService.assignKey key ⟨clonedValue, expiresAt⟩ st1.cache⟩)

/-- CacheService.get: absent on invalid key or miss; an entry whose expiresAt
is strictly before now is deleted and reported absent (lazy expiry); otherwise
a clone of the stored value is returned. -/
def CacheService.get (clone : α → α) (key : String) (now : Nat)
    (st : CacheState α) : Option α × CacheState α :=
  if key = "" then (none, st)
  else
    match CacheService.findEntry key st.cache with
    | none => (none, st)
    | some item =>
      if item.expiresAt < now then (none, ⟨CacheService.removeKey key st.cache⟩)
      else (some (clone item.value), st)

/-- CacheService.has: same presence and expiry logic as get, returning a
boolean. -/
def CacheService.has (key : String) (now : Nat) (st : CacheState α) :
    Bool × CacheState α :=
  if key = "" then (false, st)
  else
    match CacheService.findEntry key st.cache with
    | none => (false, st)
    | some item =>
      if item.expiresAt < now then (false, ⟨CacheService.removeKey key st.cache⟩)
      else (true, st)

/-- CacheService.delete: tests raw presence (the JavaScript `key in cache`),
with no expiry check, and reports whether something was removed. -/
def CacheService.delete (key : String) (st : CacheState α) : Bool × CacheState α :=
  if key = "" then (false, st)
  else
    match CacheService.findEntry key st.cache with
    | some _ => (true, ⟨CacheService.removeKey key st.cache⟩)
    | none => (false, st)

/-- CacheService.clear. -/
def CacheService.clear (_st : CacheState α) : CacheState α := ⟨[]⟩

/-- The record returned by CacheService.getStats. -/
structure CacheStats where
  size : Nat
  maxSize : Nat
  keys : List String
deriving DecidableEq, Repr

/-- CacheService.getStats: size, the fixed maximum, and only the first ten
keys as a debugging sample. -/
def CacheService.getStats (st : CacheState α) : CacheStats :=
  ⟨(CacheService.keys st).length, 1000, (CacheService.keys st).take 10⟩

/-- CacheService.cleanupExpired, the periodic sweep body: drop every entry
whose expiresAt is strictly before now. -/
def CacheService.cleanupExpired (now : Nat) :
    List (String × CacheEntry α) → List (String × CacheEntry α)
  | [] => []
  | (k, e) :: rest =>
    if e.expiresAt < now then CacheService.cleanupExpired now rest
    else (k, e) :: CacheService.cleanupExpired now rest

/-- JavaScript String.prototype.startsWith. -/
def jsStartsWith (s p : String) : Bool :=
  p.data.isPrefixOf s.data

/-- TasksService.invalidateTaskCache: delete the statistics key, then walk the
ten-key sample of getStats deleting keys with the tasks: or stats: prefixes,
then delete the two literal wildcard-looking keys. -/
def TasksService.invalidateTaskCache (st : CacheState α) : CacheState α :=
  let st1 := (CacheService.delete "stats:task-statistics" st).2
  let sample := (CacheService.getStats st1).keys
  let st2 := sample.foldl
    (fun s k => if jsStartsWith k "tasks:" || jsStartsWith k "stats:"
                then (CacheService.delete k s).2 else s) st1
  let st3 := (CacheService.delete "tasks:*" st2).2
  (CacheService.delete "stats:*" st3).2

/-- A store of n distinct keys (used to exhibit a store at capacity). -/
def CacheService.mkKey (i : Nat) : String :=
  String.mk (List.replicate (i + 1) 'a')

/-- A store holding n distinct entries, all with expiresAt 100 and value 0. -/
def CacheService.mkBig (n : Nat) : CacheState Nat :=
  ⟨(List.range n).map (fun i => (CacheService.mkKey i, ⟨0, 100⟩))⟩

/-! ## Sliding-window rate limiter (RateLimitGuard) -/

/-- One request record as pushed by the guard: literally the object with
count 1 and the current timestamp. -/
structure RateRecord where
  count : Nat
  timestamp : Int
deriving DecidableEq, Repr

/-- The module-level requestRecords map, ip to its record list. -/
structure RateState where
  records : List (String × List RateRecord)
deriving DecidableEq, Repr

/-- The payload of the HttpException thrown on rejection (the human-readable
message string is omitted; the structured fields are kept). -/
structure RateLimitExceeded where
  status : Nat
  error : String
  limit : Nat
  current : Nat
  remaining : Nat
  retryAfter : Nat
deriving DecidableEq, Repr

/-- requestRecords[ip] lookup. -/
def RateLimitGuard.lookupIp (ip : String) :
    List (String × List RateRecord) → Option (List RateRecord)
  | [] => none
  | (ip', rs) :: rest => if ip' = ip then some rs else RateLimitGuard.lookupIp ip rest

/-- requestRecords[ip] = rs assignment (existing ip keeps its position, new ip
is appended). -/
def RateLimitGuard.assignIp (ip : String) (rs : List RateRecord) :
    List (String × List RateRecord) → List (String × List RateRecord)
  | [] => [(ip, rs)]
  | (ip', rs') :: rest =>
    if ip' = ip then (ip, rs) :: rest
    else (ip', rs') :: RateLimitGuard.assignIp ip rs rest

/-- The filter keeping records with timestamp strictly inside the window. -/
def RateLimitGuard.filterRecent (bound : Int) : List RateRecord → List RateRecord
  | [] => []
  | r :: rest =>
    if bound < r.timestamp then r :: RateLimitGuard.filterRecent bound rest
    else RateLimitGuard.filterRecent bound rest

/-- RateLimitGuard.cleanupOldRecords: for each ip drop records older than five
minutes, and drop the ip entirely when none remain. -/
def RateLimitGuard.cleanupOldRecords (now : Int) (st : RateState) : RateState :=
  ⟨(st.records.map
      (fun p => (p.1, RateLimitGuard.filterRecent (now - 5 * 60 * 1000) p.2))).filter
    (fun p => !p.2.isEmpty)⟩

/-- RateLimitGuard.handleRateLimit.  rand models the Math.random() < 0.001
draw deciding whether the periodic cleanup runs on this call.  On rejection
the HttpException payload is in the error component and the filtered records
for ip remain stored (the filtering assignment precedes the check). -/
def RateLimitGuard.handleRateLimit (ip : String) (limit windowMs : Nat)
    (now : Int) (rand : Bool) (st : RateState) :
    Except RateLimitExceeded Bool × RateState :=
  let recs := (RateLimitGuard.lookupIp ip st.records).getD []
  let windowStart : Int := now - windowMs
  let filtered := RateLimitGuard.filterRecent windowStart recs
  if limit ≤ filtered.length then
    (Except.error ⟨429, "Rate limit exceeded", limit, filtered.length, 0, (windowMs + 999) / 1000⟩,
     ⟨RateLimitGuard.assignIp ip filtered st.records⟩)
  else
    let st1 : RateState := ⟨RateLimitGuard.assignIp ip (filtered ++ [⟨1, now⟩]) st.records⟩
    (Except.ok true, if rand then RateLimitGuard.cleanupOldRecords now st1 else st1)

/-- States reached by repeated checks of identity i with limit 3 and window
1000 at the given times, newest first, starting from an empty map. -/
def RateLimitGuard.scenarioState : List Int → RateState
  | [] => ⟨[]⟩
  | t :: ts => (RateLimitGuard.handleRateLimit "i" 3 1000 t false
      (RateLimitGuard.scenarioState ts)).2

/-! ## Job processor (TaskProcessorService) -/

/-- The payload fields the two handlers read from job.data; none means the
property is absent. -/
structure JobData where
  taskId : Option String
  status : Option String
  dueDate : Option String
  userId : Option String
deriving DecidableEq, Repr

/-- A delivered queue job as seen by process. -/
structure Job where
  id : String
  name : String
  attemptsMade : Nat
  data : JobData
deriving DecidableEq, Repr

/-- The task row returned by tasksService.updateStatus. -/
structure TaskRecord where
  id : String
  status : String
deriving DecidableEq, Repr

/-- The heterogeneous result objects returned by the processor, with absent
properties as none. -/
structure ProcessResult where
  success : Bool
  error : Option String := none
  taskId : Option String := none
  newStatus : Option String := none
  message : Option String := none
  overdueDate : Option String := none
deriving DecidableEq, Repr

/-- The external task store: updateStatus either returns the updated row or
throws (Except.error). -/
abbrev TaskSvc := String → String → Except String TaskRecord

/-- JavaScript truthiness of an optional string field (undefined and the empty
string are falsy). -/
def truthy : Option String → Bool
  | none => false
  | some s => s ≠ ""

/-- Modelled from the spec: the TaskStatus enum source file is not among the
provided sources; the statuses the provided code names are PENDING,
IN_PROGRESS and COMPLETED, so Object.values(TaskStatus) is this list. -/
def taskStatusValues : List String :=
  ["PENDING", "IN_PROGRESS", "COMPLETED"]

/-- JavaScript Array.prototype.includes on strings. -/
def includesStr (s : String) : List String → Bool
  | [] => false
  | x :: rest => if x = s then true else includesStr s rest

/-- TaskProcessorService.handleStatusUpdate: validate presence and enum
membership of the payload, then delegate to updateStatus; a downstream throw
propagates. -/
def TaskProcessorService.handleStatusUpdate (svc : TaskSvc) (job : Job) :
    Except String ProcessResult :=
  let taskId := job.data.taskId
  let status := job.data.status
  if !truthy taskId || !truthy status then
    Except.ok { success := false, error := some "Missing required data" }
  else if !includesStr (status.getD "") taskStatusValues then
    Except.ok { success := false, error := some "Invalid status value" }
  else
    match svc (taskId.getD "") (status.getD "") with
    | Except.ok task =>
      Except.ok { success := true, taskId := some task.id, newStatus := some task.status }
    | Except.error err => Except.error err

/-- TaskProcessorService.handleOverdueTasks: validate taskId and userId, then
mark the task in progress via updateStatus; a downstream throw propagates. -/
def TaskProcessorService.handleOverdueTasks (svc : TaskSvc) (job : Job) :
    Except String ProcessResult :=
  let taskId := job.data.taskId
  let dueDate := job.data.dueDate
  let userId := job.data.userId
  if !truthy taskId || !truthy userId then
    Except.ok { success := false, error := some "Missing required data for overdue task" }
  else
    match svc (taskId.getD "") "IN_PROGRESS" with
    | Except.ok task =>
      Except.ok { success := true, message := some "Overdue task processed",
                  taskId := taskId, newStatus := some task.status, overdueDate := dueDate }
    | Except.error err => Except.error err

/-- The switch on job.name inside process. -/
def TaskProcessorService.dispatch (svc : TaskSvc) (job : Job) :
    Except String ProcessResult :=
  match job.name with
  | "task-status-update" => TaskProcessorService.handleStatusUpdate svc job
  | "overdue-tasks-notification" => TaskProcessorService.handleOverdueTasks svc job
  | _ => Except.ok { success := false, error := some "Unknown job type" }

/-- TaskProcessorService.process: dispatch, and on a caught failure re-throw
while job.attemptsMade < 3, otherwise convert it to a terminal non-throwing
failure result. -/
def TaskProcessorService.process (svc : TaskSvc) (job : Job) :
    Except String ProcessResult :=
  match TaskProcessorService.dispatch svc job with
  | Except.ok value => Except.ok value
  | Except.error err =>
    if job.attemptsMade < 3 then Except.error err
    else
      Except.ok { success := false, error := some "Job failed after maximum retries",
                  taskId := job.data.taskId }

/-! ## Heap model of JavaScript values, for CacheService.deepClone

deepClone recursively copies dates, arrays and plain objects and returns
primitives as they are.  To talk about aliasing we model object identity with
an explicit heap: a JSVal is a primitive or a reference into the heap, and
mutating the caller's value is updating the heap at one of its pre-existing
addresses.  deepClone carries a fuel bound standing for the JavaScript call
stack (it diverges on cyclic values). -/

/-- Values deepClone returns unchanged (typeof not equal to object, plus
null). -/
inductive JSPrim where
  | null
  | undef
  | bool (b : Bool)
  | num (n : Int)
  | str (s : String)
deriving DecidableEq, Repr

/-- A JavaScript value: a primitive or a reference to a heap object. -/
inductive JSVal where
  | prim (p : JSPrim)
  | ref (a : Nat)
deriving DecidableEq, Repr

/-- A heap object: a Date, an Array, or a plain object with ordered fields. -/
inductive HObj where
  | date (t : Int)
  | arr (elems : List JSVal)
  | obj (fields : List (String × JSVal))
deriving DecidableEq, Repr

/-- The heap: an address-indexed store plus the next fresh address. -/
structure JSHeap where
  objs : List (Nat × HObj)
  next : Nat
deriving Repr

/-- Address lookup. -/
def findAddr (a : Nat) : List (Nat × HObj) → Option HObj
  | [] => none
  | (a', o) :: rest => if a' = a then some o else findAddr a rest

def JSHeap.find (h : JSHeap) (a : Nat) : Option HObj :=
  findAddr a h.objs

/-- Allocation of a new object at a fresh address. -/
def JSHeap.alloc (h : JSHeap) (o : HObj) : Nat × JSHeap :=
  (h.next, ⟨(h.next, o) :: h.objs, h.next + 1⟩)

/-- In-place replacement of the object stored at an address: a mutation of an
existing JavaScript object. -/
def updateAddr (a : Nat) (o : HObj) : List (Nat × HObj) → List (Nat × HObj)
  | [] => []
  | (a', o') :: rest =>
    if a' = a then (a', o) :: updateAddr a o rest
    else (a', o') :: updateAddr a o rest

def JSHeap.update (h : JSHeap) (a : Nat) (o : HObj) : JSHeap :=
  ⟨updateAddr a o h.objs, h.next⟩

/-- Every stored address is below the fresh-address counter. -/
def JSHeap.wf (h : JSHeap) : Prop :=
  ∀ p ∈ h.objs, p.1 < h.next

/-- Left-to-right cloning of the members of an array, threading the heap (the
obj.map(item => this.deepClone(item)) loop). -/
def cloneSeq (f : JSHeap → JSVal → Option (JSVal × JSHeap)) :
    JSHeap → List JSVal → Option (List JSVal × JSHeap)
  | h, [] => some ([], h)
  | h, v :: vs =>
    match f h v with
    | none => none
    | some (v', h') =>
      match cloneSeq f h' vs with
      | none => none
      | some (vs', h'') => some (v' :: vs', h'')

/-- Left-to-right cloning of the own fields of an object, threading the heap
(the for-in loop of deepClone). -/
def cloneFieldsSeq (f : JSHeap → JSVal → Option (JSVal × JSHeap)) :
    JSHeap → List (String × JSVal) → Option (List (String × JSVal) × JSHeap)
  | h, [] => some ([], h)
  | h, (k, v) :: vs =>
    match f h v with
    | none => none
    | some (v', h') =>
      match cloneFieldsSeq f h' vs with
      | none => none
      | some (vs', h'') => some ((k, v') :: vs', h'')

/-- CacheService.deepClone over the heap model: primitives returned as-is,
dates, arrays and objects copied recursively into fresh heap objects.  none
models the stack overflow a cyclic value would cause. -/
def CacheService.deepClone : Nat → JSHeap → JSVal → Option (JSVal × JSHeap)
  | 0, _, _ => none
  | fuel + 1, h, v =>
    match v with
    | .prim p => some (.prim p, h)
    | .ref a =>
      match h.find a with
      | none => none
      | some (.date t) =>
        let (a', h') := h.alloc (.date t)
        some (.ref a', h')
      | some (.arr elems) =>
        match cloneSeq (fun h' v' => CacheService.deepClone fuel h' v') h elems with
        | none => none
        | some (elems', h1) =>
          let (a', h2) := h1.alloc (.arr elems')
          some (.ref a', h2)
      | some (.obj fields) =>
        match cloneFieldsSeq (fun h' v' => CacheService.deepClone fuel h' v') h fields with
        | none => none
        | some (fields', h1) =>
          let (a', h2) := h1.alloc (.obj fields')
          some (.ref a', h2)

/-- The pure shape of a value: the tree a JSVal unfolds to through the heap.
Deep equality of two values is equality of their trees. -/
inductive JSTree where
  | prim (p : JSPrim)
  | date (t : Int)
  | arr (elems : List JSTree)
  | obj (fields : List (String × JSTree))

/-- Unfold each member of a list of values. -/
def optSeq (f : JSVal → Option JSTree) : List JSVal → Option (List JSTree)
  | [] => some []
  | v :: vs =>
    match f v with
    | none => none
    | some t =>
      match optSeq f vs with
      | none => none
      | some ts => some (t :: ts)

/-- Unfold each field of an object. -/
def optFieldsSeq (f : JSVal → Option JSTree) :
    List (String × JSVal) → Option (List (String × JSTree))
  | [] => some []
  | (k, v) :: vs =>
    match f v with
    | none => none
    | some t =>
      match optFieldsSeq f vs with
      | none => none
      | some ts => some ((k, t) :: ts)

/-- The tree denoted by a value in a heap, within a depth bound. -/
def denote : Nat → JSHeap → JSVal → Option JSTree
  | 0, _, _ => none
  | fuel + 1, h, v =>
    match v with
    | .prim p => some (.prim p)
    | .ref a =>
      match h.find a with
      | none => none
      | some (.date t) => some (.date t)
      | some (.arr elems) =>
        match optSeq (fun v' => denote fuel h v') elems with
        | none => none
        | some ts => some (.arr ts)
      | some (.obj fields) =>
        match optFieldsSeq (fun v' => denote fuel h v') fields with
        | none => none
        | some ts => some (.obj ts)

/-- CacheService.set over heap values: the clone of the argument is stored
(clone failure surfaces as an error, as the source rethrows from set). -/
def CacheService.setH (fuel : Nat) (key : String) (value : JSVal)
    (ttlSeconds now : Nat) (st : CacheState JSVal) (h : JSHeap) :
    Option String × CacheState JSVal × JSHeap :=
  if key = "" then (some "Invalid cache key", st, h)
  else
    let st1 := if 1000 ≤ st.cache.length then CacheService.evictOldest st else st
    match CacheService.deepClone fuel h value with
    | none => (some "clone failure", st1, h)
    | some (v', h') =>
      (none, ⟨CacheService.assignKey key ⟨v', now + ttlSeconds * 1000⟩ st1.cache⟩, h')

/-- CacheService.get over heap values: a clone of the stored value is
returned (the source catch returns null, so clone failure yields absent). -/
def CacheService.getH (fuel : Nat) (key : String) (now : Nat)
    (st : CacheState JSVal) (h : JSHeap) :
    Option JSVal × CacheState JSVal × JSHeap :=
  if key = "" then (none, st, h)
  else
    match CacheService.findEntry key st.cache with
    | none => (none, st, h)
    | some item =>
      if item.expiresAt < now then (none, ⟨CacheService.removeKey key st.cache⟩, h)
      else
        match CacheService.deepClone fuel h item.value with
        | none => (none, st, h)
        | some (v', h') => (some v', st, h')

/-! ## Helper lemmas -/

theorem CacheService.findEntry_isSome_iff (k : String) :
    ∀ (l : List (String × CacheEntry α)),
      (CacheService.findEntry k l).isSome ↔ k ∈ l.map Prod.fst := by
  intro l
  induction l with
  | nil => simp [CacheService.findEntry]
  | cons p rest ih =>
    obtain ⟨k', e⟩ := p
    by_cases hk : k' = k
    · subst hk; simp [CacheService.findEntry]
    · simp [CacheService.findEntry, hk, ih, Ne.symm hk]

theorem CacheService.mem_of_findEntry_eq_some {k : String} {e : CacheEntry α} :
    ∀ {l : List (String × CacheEntry α)}, CacheService.findEntry k l = some e → (k, e) ∈ l := by
  intro l
  induction l with
  | nil => intro h; simp [CacheService.findEntry] at h
  | cons p rest ih =>
    intro h
    obtain ⟨k', e'⟩ := p
    simp only [CacheService.findEntry] at h
    split at h
    · rename_i hk
      injection h with he
      subst he
      subst hk
      exact List.mem_cons_self _ _
    · exact List.mem_cons_of_mem _ (ih h)

theorem CacheService.findEntry_eq_some_of_mem_nodup {k : String} {e : CacheEntry α} :
    ∀ {l : List (String × CacheEntry α)}, (l.map Prod.fst).Nodup → (k, e) ∈ l →
      CacheService.findEntry k l = some e := by
  intro l
  induction l with
  | nil => intro _ h; simp at h
  | cons p rest ih =>
    intro hnd hmem
    obtain ⟨k', e'⟩ := p
    simp only [List.map_cons, List.nodup_cons] at hnd
    rcases List.mem_cons.mp hmem with heq | hmem'
    · injection heq with h1 h2
      subst h1
      subst h2
      simp [CacheService.findEntry]
    · have hk : k' ≠ k := by
        intro hkk
        subst hkk
        exact hnd.1 (List.mem_map.mpr ⟨(k', e), hmem', rfl⟩)
      simp only [CacheService.findEntry, if_neg hk]
      exact ih hnd.2 hmem'

theorem CacheService.length_assignKey (k : String) (e : CacheEntry α) :
    ∀ (l : List (String × CacheEntry α)),
      (CacheService.assignKey k e l).length =
        if k ∈ l.map Prod.fst then l.length else l.length + 1 := by
  intro l
  induction l with
  | nil => simp [CacheService.assignKey]
  | cons p rest ih =>
    obtain ⟨k', e'⟩ := p
    by_cases hk : k' = k
    · subst hk
      simp [CacheService.assignKey]
    · have hne : ¬ k = k' := fun h => hk h.symm
      simp only [CacheService.assignKey, if_neg hk, List.length_cons, List.map_cons,
        List.mem_cons, ih]
      by_cases hmem : k ∈ rest.map Prod.fst
      · simp [hmem, hne]
      · simp [hmem, hne]

theorem CacheService.mem_keys_removeKey {k' k : String} :
    ∀ (l : List (String × CacheEntry α)),
      (k' ∈ (CacheService.removeKey k l).map Prod.fst ↔
        k' ∈ l.map Prod.fst ∧ k' ≠ k) := by
  intro l
  induction l with
  | nil => simp [CacheService.removeKey]
  | cons p rest ih =>
    obtain ⟨k'', e⟩ := p
    by_cases hk : k'' = k
    · simp only [CacheService.removeKey, if_pos hk, List.map_cons, List.mem_cons, ih]
      constructor
      · rintro ⟨h1, h2⟩
        exact ⟨Or.inr h1, h2⟩
      · rintro ⟨h1 | h1, h2⟩
        · exact absurd (h1.trans hk) h2
        · exact ⟨h1, h2⟩
    · simp only [CacheService.removeKey, if_neg hk, List.map_cons, List.mem_cons, ih]
      constructor
      · rintro (h1 | ⟨h1, h2⟩)
        · exact ⟨Or.inl h1, fun hh => hk ((h1.symm.trans hh))⟩
        · exact ⟨Or.inr h1, h2⟩
      · rintro ⟨h1 | h1, h2⟩
        · exact Or.inl h1
        · exact Or.inr ⟨h1, h2⟩

theorem CacheService.length_removeKey_le (k : String) :
    ∀ (l : List (String × CacheEntry α)),
      (CacheService.removeKey k l).length ≤ l.length := by
  intro l
  induction l with
  | nil => simp [CacheService.removeKey]
  | cons p rest ih =>
    obtain ⟨k', e⟩ := p
    by_cases hk : k' = k
    · simp only [CacheService.removeKey, if_pos hk, List.length_cons]
      omega
    · simp only [CacheService.removeKey, if_neg hk, List.length_cons]
      omega

theorem CacheService.removeKey_of_not_mem {k : String} :
    ∀ {l : List (String × CacheEntry α)}, k ∉ l.map Prod.fst →
      CacheService.removeKey k l = l := by
  intro l
  induction l with
  | nil => intro _; rfl
  | cons p rest ih =>
    intro hnot
    obtain ⟨k', e⟩ := p
    simp only [List.map_cons, List.mem_cons, not_or] at hnot
    have hk : k' ≠ k := fun h => hnot.1 h.symm
    simp only [CacheService.removeKey, if_neg hk, ih hnot.2]

theorem CacheService.length_removeKey_nodup {k : String} :
    ∀ {l : List (String × CacheEntry α)}, (l.map Prod.fst).Nodup →
      k ∈ l.map Prod.fst → (CacheService.removeKey k l).length + 1 = l.length := by
  intro l
  induction l with
  | nil => intro _ h; simp at h
  | cons p rest ih =>
    intro hnd hmem
    obtain ⟨k', e⟩ := p
    simp only [List.map_cons, List.nodup_cons] at hnd
    by_cases hk : k' = k
    · simp only [CacheService.removeKey, if_pos hk, List.length_cons]
      rw [CacheService.removeKey_of_not_mem (hk ▸ hnd.1)]
    · have hmem' : k ∈ rest.map Prod.fst := by
        rcases List.mem_cons.mp hmem with h | h
        · exact absurd h.symm hk
        · exact h
      simp only [CacheService.removeKey, if_neg hk, List.length_cons]
      rw [← ih hnd.2 hmem']

theorem CacheService.findOldest_spec :
    ∀ (l : List (String × CacheEntry α)) (best : String × Nat),
      ((CacheService.findOldest best l = best) ∨
        (∃ e, ((CacheService.findOldest best l).1, e) ∈ l ∧
          e.expiresAt = (CacheService.findOldest best l).2)) ∧
      (CacheService.findOldest best l).2 ≤ best.2 ∧
      (∀ p ∈ l, (CacheService.findOldest best l).2 ≤ p.2.expiresAt) := by
  intro l
  induction l with
  | nil => intro best; exact ⟨Or.inl rfl, le_refl _, by simp⟩
  | cons p rest ih =>
    intro best
    obtain ⟨k, e⟩ := p
    by_cases hlt : e.expiresAt < best.2
    · simp only [CacheService.findOldest, if_pos hlt]
      obtain ⟨hmem, hle, hmin⟩ := ih (k, e.expiresAt)
      refine ⟨?_, le_trans hle (le_of_lt hlt), ?_⟩
      · rcases hmem with h | hh
        · refine Or.inr ⟨e, ?_, ?_⟩
          · rw [h]
            exact List.mem_cons_self _ _
          · rw [h]
        · obtain ⟨e', hm, he⟩ := hh
          exact Or.inr ⟨e', List.mem_cons_of_mem _ hm, he⟩
      · intro q hq
        rcases List.mem_cons.mp hq with h | h
        · subst h
          exact hle
        · exact hmin q h
    · simp only [CacheService.findOldest, if_neg hlt]
      obtain ⟨hmem, hle, hmin⟩ := ih best
      refine ⟨?_, hle, ?_⟩
      · rcases hmem with h | hh
        · exact Or.inl h
        · obtain ⟨e', hm, he⟩ := hh
          exact Or.inr ⟨e', List.mem_cons_of_mem _ hm, he⟩
      · intro q hq
        rcases List.mem_cons.mp hq with h | h
        · subst h
          exact le_trans hle (not_lt.mp hlt)
        · exact hmin q h

theorem CacheService.mkBig_length (n : Nat) : (CacheService.mkBig n).cache.length = n := by
  simp [CacheService.mkBig]

theorem CacheService.mkKey_injective : Function.Injective CacheService.mkKey := by
  intro i j h
  have hlen : (CacheService.mkKey i).length = (CacheService.mkKey j).length := by rw [h]
  simpa [CacheService.mkKey, String.length] using hlen

theorem CacheService.mkBig_keys_nodup (n : Nat) :
    (CacheService.keys (CacheService.mkBig n)).Nodup := by
  have h : CacheService.keys (CacheService.mkBig n) =
      (List.range n).map CacheService.mkKey := by
    simp [CacheService.keys, CacheService.mkBig, List.map_map]
  rw [h]
  exact (List.nodup_range n).map CacheService.mkKey_injective

/-- Claim C1: a set with a valid key on a store of at most MaxSize (1000)
distinct keys completes with at most 1000 entries, and when the store is at
capacity the single entry evicted before admitting the new one is one with the
smallest expiresAt among the current entries. -/
theorem cache_set_capacity_invariant {α : Type} (clone : α → α) (st : CacheState α)
    (k : String) (v : α) (ttl now : Nat)
    (wf : (CacheService.keys st).Nodup) (hle : st.cache.length ≤ 1000) (hk : k ≠ "") :
    ((CacheService.set clone k v ttl now st).1 = none ∧
      (CacheService.set clone k v ttl now st).2.cache.length ≤ 1000) ∧
    (st.cache.length = 1000 →
      ∃ ek e, (ek, e) ∈ st.cache ∧ (∀ p ∈ st.cache, e.expiresAt ≤ p.2.expiresAt) ∧
        CacheService.set clone k v ttl now st =
          (none, ⟨CacheService.assignKey k ⟨clone v, now + ttl * 1000⟩
                    (CacheService.removeKey ek st.cache)⟩)) := by
  by_cases hcap : 1000 ≤ st.cache.length
  · have hlen : st.cache.length = 1000 := le_antisymm hle hcap
    obtain ⟨l⟩ := st
    simp only [CacheService.keys] at wf
    simp only at hlen hcap
    cases l with
    | nil => simp at hlen
    | cons hd tl =>
      obtain ⟨k0, e0⟩ := hd
      obtain ⟨hmem, hle2, hmin⟩ :=
        CacheService.findOldest_spec ((k0, e0) :: tl) (k0, e0.expiresAt)
      set res := CacheService.findOldest (k0, e0.expiresAt) ((k0, e0) :: tl) with hres
      have hexists : ∃ e, (res.1, e) ∈ (k0, e0) :: tl ∧ e.expiresAt = res.2 := by
        rcases hmem with h | h
        · refine ⟨e0, ?_, ?_⟩
          · rw [h]
            exact List.mem_cons_self _ _
          · rw [h]
        · exact h
      obtain ⟨e', hmem', hexp'⟩ := hexists
      have hminall : ∀ p ∈ (k0, e0) :: tl, e'.expiresAt ≤ p.2.expiresAt := by
        intro p hp
        rw [hexp']
        exact hmin p hp
      have hkeymem : res.1 ∈ ((k0, e0) :: tl).map Prod.fst :=
        List.mem_map.mpr ⟨(res.1, e'), hmem', rfl⟩
      have hremlen : (CacheService.removeKey res.1 ((k0, e0) :: tl)).length + 1 =
          ((k0, e0) :: tl).length :=
        CacheService.length_removeKey_nodup wf hkeymem
      have hsetunfold : CacheService.set clone k v ttl now ⟨(k0, e0) :: tl⟩ =
          (none, ⟨CacheService.assignKey k ⟨clone v, now + ttl * 1000⟩
            (CacheService.removeKey res.1 ((k0, e0) :: tl))⟩) := by
        simp only [CacheService.set, if_neg hk, CacheService.evictOldest]
        rw [if_pos hcap]
      constructor
      · refine ⟨by rw [hsetunfold], ?_⟩
        rw [hsetunfold]
        simp only
        rw [CacheService.length_assignKey]
        by_cases hm : k ∈ (CacheService.removeKey res.1 ((k0, e0) :: tl)).map Prod.fst
        · rw [if_pos hm]
          omega
        · rw [if_neg hm]
          omega
      · intro _
        exact ⟨res.1, e', hmem', hminall, hsetunfold⟩
  · push_neg at hcap
    have hsetunfold : CacheService.set clone k v ttl now st =
        (none, ⟨CacheService.assignKey k ⟨clone v, now + ttl * 1000⟩ st.cache⟩) := by
      simp only [CacheService.set, if_neg hk]
      rw [if_neg (by omega)]
    constructor
    · refine ⟨by rw [hsetunfold], ?_⟩
      rw [hsetunfold]
      simp only
      rw [CacheService.length_assignKey]
      by_cases hm : k ∈ st.cache.map Prod.fst
      · rw [if_pos hm]
        omega
      · rw [if_neg hm]
        omega
    · intro h
      omega

/-- Witness for C1. -/
theorem cache_set_capacity_invariant_witness :
    ((CacheService.set (fun n : Nat => n) "b" 7 3 5 (CacheService.mkBig 1000)).1 = none ∧
      (CacheService.set (fun n : Nat => n) "b" 7 3 5 (CacheService.mkBig 1000)).2.cache.length ≤ 1000) ∧
    (∃ ek e, (ek, e) ∈ (CacheService.mkBig 1000).cache ∧
      (∀ p ∈ (CacheService.mkBig 1000).cache, e.expiresAt ≤ p.2.expiresAt) ∧
      CacheService.set (fun n : Nat => n) "b" 7 3 5 (CacheService.mkBig 1000) =
        (none, ⟨CacheService.assignKey "b" ⟨7, 5 + 3 * 1000⟩
                  (CacheService.removeKey ek (CacheService.mkBig 1000).cache)⟩)) := by
  have h := cache_set_capacity_invariant (fun n : Nat => n) (CacheService.mkBig 1000) "b" 7 3 5
    (CacheService.mkBig_keys_nodup 1000) (CacheService.mkBig_length 1000).le (by decide)
  exact ⟨h.1, h.2 (CacheService.mkBig_length 1000)⟩

/-- Claim C2 counterexample: an entry whose expiresAt equals the current time
is still visible to get, so visibility is not limited to now strictly less
than expiresAt (the source only treats expiresAt strictly less than now as
expired). -/
theorem cache_expiry_boundary_counterexample :
    (CacheService.get (fun n : Nat => n) "k" 5 ⟨[("k", ⟨0, 5⟩)]⟩).1 = some 0 ∧
    ¬ (5 < 5) := ⟨rfl, by decide⟩

/-- Claim C2 (amended): an entry is visible to get and has exactly while
now ≤ expiresAt; once expiresAt < now, get returns absent, removes the entry
as a side effect, and the resulting stats size excludes the key. -/
theorem cache_visibility_and_lazy_expiry {α : Type} (clone : α → α) (st : CacheState α)
    (k : String) (e : CacheEntry α) (now : Nat)
    (wf : (CacheService.keys st).Nodup)
    (hf : CacheService.findEntry k st.cache = some e) (hk : k ≠ "") :
    CacheService.get clone k now st =
      (if e.expiresAt < now then (none, ⟨CacheService.removeKey k st.cache⟩)
       else (some (clone e.value), st)) ∧
    CacheService.has k now st =
      (if e.expiresAt < now then (false, ⟨CacheService.removeKey k st.cache⟩)
       else (true, st)) ∧
    ((CacheService.get clone k now st).1.isSome ↔ now ≤ e.expiresAt) ∧
    k ∉ CacheService.keys (⟨CacheService.removeKey k st.cache⟩ : CacheState α) ∧
    (CacheService.getStats (⟨CacheService.removeKey k st.cache⟩ : CacheState α)).size + 1 =
      (CacheService.getStats st).size := by
  have hmem : k ∈ st.cache.map Prod.fst :=
    List.mem_map.mpr ⟨(k, e), CacheService.mem_of_findEntry_eq_some hf, rfl⟩
  refine ⟨?_, ?_, ?_, ?_, ?_⟩
  · simp [CacheService.get, hk, hf]
  · simp [CacheService.has, hk, hf]
  · simp only [CacheService.get, if_neg hk, hf]
    by_cases hexp : e.expiresAt < now
    · simp only [if_pos hexp]
      simp
      omega
    · simp only [if_neg hexp]
      simp
      omega
  · simp only [CacheService.keys]
    intro hmem'
    exact ((CacheService.mem_keys_removeKey st.cache).mp hmem').2 rfl
  · simp only [CacheService.getStats, CacheService.keys, List.length_map]
    exact CacheService.length_removeKey_nodup wf hmem

/-- Witness for the amended C2, at an expired concrete entry. -/
theorem cache_visibility_and_lazy_expiry_witness :
    CacheService.get (fun n : Nat => n) "k" 9 (⟨[("k", ⟨3, 5⟩)]⟩ : CacheState Nat) =
      (none, ⟨[]⟩) ∧
    CacheService.has "k" 9 (⟨[("k", ⟨3, 5⟩)]⟩ : CacheState Nat) = (false, ⟨[]⟩) ∧
    ¬ (CacheService.get (fun n : Nat => n) "k" 9
        (⟨[("k", ⟨3, 5⟩)]⟩ : CacheState Nat)).1.isSome := by
  have h := cache_visibility_and_lazy_expiry (fun n : Nat => n) ⟨[("k", ⟨3, 5⟩)]⟩ "k" ⟨3, 5⟩ 9
    (by decide) rfl (by decide)
  refine ⟨?_, ?_, ?_⟩
  · simpa [CacheService.removeKey] using h.1
  · simpa [CacheService.removeKey] using h.2.1
  · intro hs
    exact absurd (h.2.2.1.mp hs) (by decide)

/-- Claim C9: an empty key makes set raise Invalid cache key with the store
unchanged, while get, has and delete return the empty result without raising;
read misses and expired reads also return normally. -/
theorem cache_invalid_key_handling {α : Type} (clone : α → α) (v : α)
    (ttl now : Nat) (st : CacheState α) :
    CacheService.set clone "" v ttl now st = (some "Invalid cache key", st) ∧
    CacheService.get clone "" now st = (none, st) ∧
    CacheService.has "" now st = (false, st) ∧
    CacheService.delete "" st = (false, st) ∧
    (∀ k, CacheService.findEntry k st.cache = none →
      CacheService.get clone k now st = (none, st)) ∧
    (∀ k e, CacheService.findEntry k st.cache = some e → e.expiresAt < now →
      (CacheService.get clone k now st).1 = none) := by
  refine ⟨by simp [CacheService.set], by simp [CacheService.get],
    by simp [CacheService.has], by simp [CacheService.delete], ?_, ?_⟩
  · intro k hf
    by_cases hk : k = ""
    · simp [CacheService.get, hk]
    · simp [CacheService.get, hk, hf]
  · intro k e hf hexp
    by_cases hk : k = ""
    · simp [CacheService.get, hk]
    · simp [CacheService.get, hk, hf, hexp]

/-- Witness for C9. -/
theorem cache_invalid_key_handling_witness :
    CacheService.set (fun n : Nat => n) "" 7 3 5 (⟨[]⟩ : CacheState Nat) =
      (some "Invalid cache key", ⟨[]⟩) ∧
    CacheService.get (fun n : Nat => n) "miss" 5 (⟨[]⟩ : CacheState Nat) = (none, ⟨[]⟩) := by
  have h := cache_invalid_key_handling (fun n : Nat => n) 7 3 5 (⟨[]⟩ : CacheState Nat)
  exact ⟨h.1, h.2.2.2.2.1 "miss" rfl⟩

/-- Claim C10: delete removes an expired-but-present entry and reports true,
even though get and has report the same key absent at the same moment. -/
theorem cache_delete_ignores_expiry {α : Type} (clone : α → α) (st : CacheState α)
    (k : String) (e : CacheEntry α) (now : Nat)
    (hf : CacheService.findEntry k st.cache = some e)
    (hexp : e.expiresAt < now) (hk : k ≠ "") :
    CacheService.delete k st = (true, ⟨CacheService.removeKey k st.cache⟩) ∧
    (CacheService.get clone k now st).1 = none ∧
    (CacheService.has k now st).1 = false := by
  refine ⟨?_, ?_, ?_⟩
  · simp [CacheService.delete, hk, hf]
  · simp [CacheService.get, hk, hf, hexp]
  · simp [CacheService.has, hk, hf, hexp]

/-- Witness for C10. -/
theorem cache_delete_ignores_expiry_witness :
    CacheService.delete "k" (⟨[("k", ⟨0, 5⟩)]⟩ : CacheState Nat) =
      (true, ⟨CacheService.removeKey "k" [("k", ⟨0, 5⟩)]⟩) ∧
    (CacheService.get (fun n : Nat => n) "k" 9 (⟨[("k", ⟨0, 5⟩)]⟩ : CacheState Nat)).1 = none ∧
    (CacheService.has "k" 9 (⟨[("k", ⟨0, 5⟩)]⟩ : CacheState Nat)).1 = false :=
  cache_delete_ignores_expiry (fun n : Nat => n) ⟨[("k", ⟨0, 5⟩)]⟩ "k" ⟨0, 5⟩ 9
    rfl (by decide) (by decide)

theorem CacheService.mem_keys_delete_iff {k k' : String} (hne : k ≠ k') (st : CacheState α) :
    k ∈ CacheService.keys (CacheService.delete k' st).2 ↔ k ∈ CacheService.keys st := by
  unfold CacheService.delete
  by_cases hk' : k' = ""
  · simp [hk']
  · simp only [if_neg hk']
    cases hf : CacheService.findEntry k' st.cache with
    | none => simp
    | some e =>
      simp only [CacheService.keys]
      constructor
      · intro hm
        exact ((CacheService.mem_keys_removeKey st.cache).mp hm).1
      · intro hm
        exact (CacheService.mem_keys_removeKey st.cache).mpr ⟨hm, hne⟩

theorem TasksService.foldl_delete_only {k : String} (cond : String → Bool) :
    ∀ (l : List String) (s : CacheState α),
      k ∈ CacheService.keys s →
      k ∉ CacheService.keys (l.foldl
        (fun s' k' => if cond k' then (CacheService.delete k' s').2 else s') s) →
      k ∈ l ∧ cond k = true := by
  intro l
  induction l with
  | nil => intro s hmem hgone; exact absurd hmem hgone
  | cons c rest ih =>
    intro s hmem hgone
    simp only [List.foldl_cons] at hgone
    by_cases hmem1 : k ∈ CacheService.keys
        (if cond c then (CacheService.delete c s).2 else s)
    · obtain ⟨h1, h2⟩ := ih _ hmem1 hgone
      exact ⟨List.mem_cons_of_mem _ h1, h2⟩
    · by_cases hcond : cond c = true
      · rw [if_pos hcond] at hmem1
        by_cases hkc : k = c
        · subst hkc
          exact ⟨List.mem_cons_self _ _, hcond⟩
        · exact absurd ((CacheService.mem_keys_delete_iff hkc _).mpr hmem) hmem1
      · rw [if_neg hcond] at hmem1
        exact absurd hmem hmem1

/-- Claim C6 counterexample: invalidateTaskCache also deletes the literal key
stats:task-statistics even when that key is in no ten-key sample (here it is
the eleventh key), so the routine does not delete only sampled prefixed keys
plus the two wildcard-looking literals. -/
theorem invalidate_task_cache_counterexample :
    "stats:task-statistics" ∈ CacheService.keys
      (⟨[("f1", ⟨0, 1000⟩), ("f2", ⟨0, 1000⟩), ("f3", ⟨0, 1000⟩), ("f4", ⟨0, 1000⟩),
         ("f5", ⟨0, 1000⟩), ("f6", ⟨0, 1000⟩), ("f7", ⟨0, 1000⟩), ("f8", ⟨0, 1000⟩),
         ("f9", ⟨0, 1000⟩), ("f10", ⟨0, 1000⟩),
         ("stats:task-statistics", ⟨0, 1000⟩)]⟩ : CacheState Nat) ∧
    "stats:task-statistics" ∉ CacheService.keys
      (TasksService.invalidateTaskCache
        (⟨[("f1", ⟨0, 1000⟩), ("f2", ⟨0, 1000⟩), ("f3", ⟨0, 1000⟩), ("f4", ⟨0, 1000⟩),
           ("f5", ⟨0, 1000⟩), ("f6", ⟨0, 1000⟩), ("f7", ⟨0, 1000⟩), ("f8", ⟨0, 1000⟩),
           ("f9", ⟨0, 1000⟩), ("f10", ⟨0, 1000⟩),
           ("stats:task-statistics", ⟨0, 1000⟩)]⟩ : CacheState Nat)) ∧
    "stats:task-statistics" ∉ (CacheService.getStats
      (⟨[("f1", ⟨0, 1000⟩), ("f2", ⟨0, 1000⟩), ("f3", ⟨0, 1000⟩), ("f4", ⟨0, 1000⟩),
         ("f5", ⟨0, 1000⟩), ("f6", ⟨0, 1000⟩), ("f7", ⟨0, 1000⟩), ("f8", ⟨0, 1000⟩),
         ("f9", ⟨0, 1000⟩), ("f10", ⟨0, 1000⟩),
         ("stats:task-statistics", ⟨0, 1000⟩)]⟩ : CacheState Nat)).keys ∧
    "stats:task-statistics" ∉ (CacheService.getStats
      ((CacheService.delete "stats:task-statistics"
        (⟨[("f1", ⟨0, 1000⟩), ("f2", ⟨0, 1000⟩), ("f3", ⟨0, 1000⟩), ("f4", ⟨0, 1000⟩),
           ("f5", ⟨0, 1000⟩), ("f6", ⟨0, 1000⟩), ("f7", ⟨0, 1000⟩), ("f8", ⟨0, 1000⟩),
           ("f9", ⟨0, 1000⟩), ("f10", ⟨0, 1000⟩),
           ("stats:task-statistics", ⟨0, 1000⟩)]⟩ : CacheState Nat)).2)).keys ∧
    "stats:task-statistics" ≠ "tasks:*" ∧ "stats:task-statistics" ≠ "stats:*" := by
  decide

/-- Claim C6 (amended): a key removed by invalidateTaskCache is either the
literal key stats:task-statistics (deleted first), a tasks: or stats: prefixed
key of the ten-key sample getStats returns after that first deletion, or one
of the literal keys tasks:* and stats:*; and there is a state holding an
unexpired tasks: entry that survives the routine. -/
theorem invalidate_task_cache_limited_deletion {α : Type} (st : CacheState α) (k : String)
    (hmem : k ∈ CacheService.keys st)
    (hgone : k ∉ CacheService.keys (TasksService.invalidateTaskCache st)) :
    (k = "stats:task-statistics" ∨ k = "tasks:*" ∨ k = "stats:*" ∨
      (k ∈ (CacheService.getStats ((CacheService.delete "stats:task-statistics" st).2)).keys ∧
        (jsStartsWith k "tasks:" || jsStartsWith k "stats:") = true)) ∧
    (CacheService.get (fun n : Nat => n) "tasks:p11" 0
        (TasksService.invalidateTaskCache
          (⟨[("f1", ⟨0, 1000⟩), ("f2", ⟨0, 1000⟩), ("f3", ⟨0, 1000⟩), ("f4", ⟨0, 1000⟩),
             ("f5", ⟨0, 1000⟩), ("f6", ⟨0, 1000⟩), ("f7", ⟨0, 1000⟩), ("f8", ⟨0, 1000⟩),
             ("f9", ⟨0, 1000⟩), ("f10", ⟨0, 1000⟩),
             ("tasks:p11", ⟨7, 1000⟩)]⟩ : CacheState Nat))).1 = some 7 := by
  constructor
  · by_cases hk1 : k = "stats:task-statistics"
    · exact Or.inl hk1
    by_cases hk2 : k = "tasks:*"
    · exact Or.inr (Or.inl hk2)
    by_cases hk3 : k = "stats:*"
    · exact Or.inr (Or.inr (Or.inl hk3))
    refine Or.inr (Or.inr (Or.inr ?_))
    have h1 : k ∈ CacheService.keys (CacheService.delete "stats:task-statistics" st).2 :=
      (CacheService.mem_keys_delete_iff hk1 st).mpr hmem
    by_cases h2 : k ∈ CacheService.keys
        ((CacheService.getStats ((CacheService.delete "stats:task-statistics" st).2)).keys.foldl
          (fun s' k' => if jsStartsWith k' "tasks:" || jsStartsWith k' "stats:"
            then (CacheService.delete k' s').2 else s')
          (CacheService.delete "stats:task-statistics" st).2)
    · exfalso
      have h3 := (CacheService.mem_keys_delete_iff hk2 _).mpr h2
      have h4 := (CacheService.mem_keys_delete_iff hk3 _).mpr h3
      exact hgone h4
    · exact TasksService.foldl_delete_only
        (fun k' => jsStartsWith k' "tasks:" || jsStartsWith k' "stats:") _ _ h1 h2
  · decide

/-- Witness for the amended C6. -/
theorem invalidate_task_cache_limited_deletion_witness :
    ("stats:task-statistics" = "stats:task-statistics" ∨ "stats:task-statistics" = "tasks:*" ∨
      "stats:task-statistics" = "stats:*" ∨
      ("stats:task-statistics" ∈ (CacheService.getStats
          ((CacheService.delete "stats:task-statistics"
            (⟨[("stats:task-statistics", ⟨0, 1000⟩)]⟩ : CacheState Nat)).2)).keys ∧
        (jsStartsWith "stats:task-statistics" "tasks:" ||
          jsStartsWith "stats:task-statistics" "stats:") = true)) ∧
    (CacheService.get (fun n : Nat => n) "tasks:p11" 0
        (TasksService.invalidateTaskCache
          (⟨[("f1", ⟨0, 1000⟩), ("f2", ⟨0, 1000⟩), ("f3", ⟨0, 1000⟩), ("f4", ⟨0, 1000⟩),
             ("f5", ⟨0, 1000⟩), ("f6", ⟨0, 1000⟩), ("f7", ⟨0, 1000⟩), ("f8", ⟨0, 1000⟩),
             ("f9", ⟨0, 1000⟩), ("f10", ⟨0, 1000⟩),
             ("tasks:p11", ⟨7, 1000⟩)]⟩ : CacheState Nat))).1 = some 7 :=
  invalidate_task_cache_limited_deletion
    (⟨[("stats:task-statistics", ⟨0, 1000⟩)]⟩ : CacheState Nat) "stats:task-statistics"
    (by decide) (by decide)

/-- Claim C4: check keeps only the timestamps strictly inside the trailing
window, rejects when their count reaches the limit with the structured detail
(limit, current, remaining 0, retry-after in seconds), otherwise records now
and allows; and the concrete 3-per-second scenario allows three times,
rejects the fourth, and allows again after the window has passed. -/
theorem rate_limit_check_behavior (ip : String) (limit windowMs : Nat) (now : Int)
    (rand : Bool) (st : RateState) (_hl : 0 < limit) (_hw : 0 < windowMs) :
    (limit ≤ (RateLimitGuard.filterRecent (now - (windowMs : Int))
        ((RateLimitGuard.lookupIp ip st.records).getD [])).length →
      RateLimitGuard.handleRateLimit ip limit windowMs now rand st =
        (Except.error ⟨429, "Rate limit exceeded", limit,
            (RateLimitGuard.filterRecent (now - (windowMs : Int))
              ((RateLimitGuard.lookupIp ip st.records).getD [])).length, 0,
            (windowMs + 999) / 1000⟩,
         ⟨RateLimitGuard.assignIp ip
            (RateLimitGuard.filterRecent (now - (windowMs : Int))
              ((RateLimitGuard.lookupIp ip st.records).getD [])) st.records⟩)) ∧
    ((RateLimitGuard.filterRecent (now - (windowMs : Int))
        ((RateLimitGuard.lookupIp ip st.records).getD [])).length < limit →
      (RateLimitGuard.handleRateLimit ip limit windowMs now rand st).1 = Except.ok true ∧
      RateLimitGuard.handleRateLimit ip limit windowMs now false st =
        (Except.ok true,
         ⟨RateLimitGuard.assignIp ip
            (RateLimitGuard.filterRecent (now - (windowMs : Int))
              ((RateLimitGuard.lookupIp ip st.records).getD []) ++ [⟨1, now⟩])
            st.records⟩)) ∧
    ((RateLimitGuard.handleRateLimit "i" 3 1000 0 false
        (RateLimitGuard.scenarioState [])).1 = Except.ok true ∧
      (RateLimitGuard.handleRateLimit "i" 3 1000 100 false
        (RateLimitGuard.scenarioState [0])).1 = Except.ok true ∧
      (RateLimitGuard.handleRateLimit "i" 3 1000 200 false
        (RateLimitGuard.scenarioState [100, 0])).1 = Except.ok true ∧
      (RateLimitGuard.handleRateLimit "i" 3 1000 300 false
        (RateLimitGuard.scenarioState [200, 100, 0])).1 =
          Except.error ⟨429, "Rate limit exceeded", 3, 3, 0, 1⟩ ∧
      (RateLimitGuard.handleRateLimit "i" 3 1000 1301 false
        (RateLimitGuard.scenarioState [300, 200, 100, 0])).1 = Except.ok true) := by
  refine ⟨?_, ?_, rfl, rfl, rfl, rfl, rfl⟩
  · intro hge
    simp only [RateLimitGuard.handleRateLimit, if_pos hge]
  · intro hlt
    constructor
    · simp only [RateLimitGuard.handleRateLimit, if_neg (not_le.mpr hlt)]
    · simp only [RateLimitGuard.handleRateLimit, if_neg (not_le.mpr hlt), Bool.false_eq_true,
        if_neg (fun h : False => h.elim)]

/-- Witness for C4, at an allowed first request. -/
theorem rate_limit_check_behavior_witness :
    ((RateLimitGuard.handleRateLimit "w" 1 1000 0 false ⟨[]⟩).1 = Except.ok true ∧
      RateLimitGuard.handleRateLimit "w" 1 1000 0 false ⟨[]⟩ =
        (Except.ok true,
         ⟨RateLimitGuard.assignIp "w"
            (RateLimitGuard.filterRecent ((0 : Int) - (1000 : Nat))
              ((RateLimitGuard.lookupIp "w" (⟨[]⟩ : RateState).records).getD []) ++ [⟨1, 0⟩])
            (⟨[]⟩ : RateState).records⟩)) ∧
    (RateLimitGuard.handleRateLimit "i" 3 1000 300 false
      (RateLimitGuard.scenarioState [200, 100, 0])).1 =
        Except.error ⟨429, "Rate limit exceeded", 3, 3, 0, 1⟩ := by
  have h := rate_limit_check_behavior "w" 1 1000 0 false ⟨[]⟩ (by decide) (by decide)
  exact ⟨h.2.1 (by decide), h.2.2.2.2.2.1⟩

/-- Claim C3 counterexample: at the retry ceiling the processor returns the
error string Job failed after maximum retries, not max retries exceeded as
the claim states (and the result has no jobId field). -/
theorem processor_retry_error_message_counterexample :
    TaskProcessorService.process (fun _ _ => Except.error "boom")
        ⟨"j", "overdue-tasks-notification", 3, ⟨some "t", none, some "d", some "u"⟩⟩ =
      Except.ok ⟨false, some "Job failed after maximum retries", some "t", none, none, none⟩ ∧
    (some "Job failed after maximum retries" : Option String) ≠ some "max retries exceeded" :=
  ⟨rfl, by decide⟩

/-- Claim C3 (amended): when the dispatched handler raises, process re-raises
the failure while attemptsMade < 3 and otherwise returns the non-throwing
terminal result with success false, error Job failed after maximum retries and
the payload taskId; an always-throwing handler redelivered with attemptsMade
0,1,2,3 therefore re-raises three times and ends with that terminal result. -/
theorem processor_bounded_retry (svc : TaskSvc) (job : Job) (err : String)
    (hd : TaskProcessorService.dispatch svc job = Except.error err) :
    TaskProcessorService.process svc job =
      (if job.attemptsMade < 3 then Except.error err
       else Except.ok { success := false, error := some "Job failed after maximum retries",
                        taskId := job.data.taskId }) ∧
    (∀ n : Nat,
      TaskProcessorService.process (fun _ _ => Except.error "boom")
        ⟨"j", "overdue-tasks-notification", n, ⟨some "t", none, some "d", some "u"⟩⟩ =
        (if n < 3 then Except.error "boom"
         else Except.ok { success := false, error := some "Job failed after maximum retries",
                          taskId := some "t" })) := by
  constructor
  · simp only [TaskProcessorService.process, hd]
  · intro n
    rfl

/-- Witness for the amended C3, at the third redelivery of a throwing job. -/
theorem processor_bounded_retry_witness :
    TaskProcessorService.process (fun _ _ => Except.error "oops")
        ⟨"j", "task-status-update", 2, ⟨some "t", some "PENDING", none, none⟩⟩ =
      (if 2 < 3 then Except.error "oops"
       else Except.ok { success := false, error := some "Job failed after maximum retries",
                        taskId := some "t" }) ∧
    (∀ n : Nat,
      TaskProcessorService.process (fun _ _ => Except.error "boom")
        ⟨"j", "overdue-tasks-notification", n, ⟨some "t", none, some "d", some "u"⟩⟩ =
        (if n < 3 then Except.error "boom"
         else Except.ok { success := false, error := some "Job failed after maximum retries",
                          taskId := some "t" })) :=
  processor_bounded_retry (fun _ _ => Except.error "oops")
    ⟨"j", "task-status-update", 2, ⟨some "t", some "PENDING", none, none⟩⟩ "oops" rfl

/-- Claim C7: a structurally invalid payload (missing taskId or status, or a
status outside the enum, for status updates; missing taskId or userId for
overdue notifications) yields an immediate non-throwing failure result, so
such a job is never retried, whatever attemptsMade is. -/
theorem processor_malformed_payload_terminal (svc : TaskSvc) (job : Job)
    (h : (job.name = "task-status-update" ∧
            (truthy job.data.taskId = false ∨ truthy job.data.status = false ∨
              includesStr (job.data.status.getD "") taskStatusValues = false)) ∨
         (job.name = "overdue-tasks-notification" ∧
            (truthy job.data.taskId = false ∨ truthy job.data.userId = false))) :
    ∃ r, TaskProcessorService.process svc job = Except.ok r ∧
      r.success = false ∧ r.error.isSome = true := by
  rcases h with ⟨hname, hbad⟩ | ⟨hname, hbad⟩
  · have hdp : TaskProcessorService.dispatch svc job =
        TaskProcessorService.handleStatusUpdate svc job := by
      unfold TaskProcessorService.dispatch
      rw [hname]
      rfl
    by_cases hcond : (!truthy job.data.taskId || !truthy job.data.status) = true
    · refine ⟨⟨false, some "Missing required data", none, none, none, none⟩, ?_, rfl, rfl⟩
      simp [TaskProcessorService.process, hdp, TaskProcessorService.handleStatusUpdate, hcond]
    · have henum : includesStr (job.data.status.getD "") taskStatusValues = false := by
        rcases hbad with hb | hb | hb
        · exact absurd (by simp [hb]) hcond
        · exact absurd (by simp [hb]) hcond
        · exact hb
      refine ⟨⟨false, some "Invalid status value", none, none, none, none⟩, ?_, rfl, rfl⟩
      simp [TaskProcessorService.process, hdp, TaskProcessorService.handleStatusUpdate,
        hcond, henum]
  · have hdp : TaskProcessorService.dispatch svc job =
        TaskProcessorService.handleOverdueTasks svc job := by
      unfold TaskProcessorService.dispatch
      rw [hname]
      rfl
    have hcond : (!truthy job.data.taskId || !truthy job.data.userId) = true := by
      rcases hbad with hb | hb
      · simp [hb]
      · simp [hb]
    refine ⟨⟨false, some "Missing required data for overdue task", none, none, none, none⟩,
      ?_, rfl, rfl⟩
    simp [TaskProcessorService.process, hdp, TaskProcessorService.handleOverdueTasks, hcond]

/-- Witness for C7, at a status outside the enum with four attempts already
made. -/
theorem processor_malformed_payload_terminal_witness :
    ∃ r, TaskProcessorService.process (fun _ _ => Except.error "x")
        ⟨"j", "task-status-update", 4, ⟨some "t", some "BOGUS", none, none⟩⟩ = Except.ok r ∧
      r.success = false ∧ r.error.isSome = true :=
  processor_malformed_payload_terminal (fun _ _ => Except.error "x")
    ⟨"j", "task-status-update", 4, ⟨some "t", some "BOGUS", none, none⟩⟩
    (Or.inl ⟨rfl, Or.inr (Or.inr rfl)⟩)

/-- Claim C8 counterexample: a job of unregistered kind gets the error string
Unknown job type, not unknown kind as the claim states. -/
theorem processor_unknown_kind_counterexample :
    TaskProcessorService.process (fun _ _ => Except.error "x")
        ⟨"j", "bogus", 0, ⟨none, none, none, none⟩⟩ =
      Except.ok ⟨false, some "Unknown job type", none, none, none, none⟩ ∧
    (some "Unknown job type" : Option String) ≠ some "unknown kind" :=
  ⟨rfl, by decide⟩

/-- Claim C8 (amended): a job whose kind is neither registered handler name
returns the non-throwing result with success false and error Unknown job type,
for any attemptsMade, so it is never retried. -/
theorem processor_unknown_kind_no_retry (svc : TaskSvc) (job : Job)
    (h1 : job.name ≠ "task-status-update") (h2 : job.name ≠ "overdue-tasks-notification") :
    TaskProcessorService.process svc job =
      Except.ok { success := false, error := some "Unknown job type" } := by
  have hd : TaskProcessorService.dispatch svc job =
      Except.ok { success := false, error := some "Unknown job type" } := by
    unfold TaskProcessorService.dispatch
    split
    · rename_i heq
      exact absurd heq h1
    · rename_i heq
      exact absurd heq h2
    · rfl
  simp [TaskProcessorService.process, hd]

/-- Witness for the amended C8. -/
theorem processor_unknown_kind_no_retry_witness :
    TaskProcessorService.process (fun _ _ => Except.error "y")
        ⟨"j", "mystery", 5, ⟨none, none, none, none⟩⟩ =
      Except.ok { success := false, error := some "Unknown job type" } :=
  processor_unknown_kind_no_retry (fun _ _ => Except.error "y")
    ⟨"j", "mystery", 5, ⟨none, none, none, none⟩⟩ (by decide) (by decide)

/-! ## Lemmas for the heap model and deepClone -/

theorem findAddr_mem {a : Nat} {o : HObj} :
    ∀ {l : List (Nat × HObj)}, findAddr a l = some o → (a, o) ∈ l := by
  intro l
  induction l with
  | nil => intro h; simp [findAddr] at h
  | cons p rest ih =>
    intro h
    obtain ⟨a', o'⟩ := p
    simp only [findAddr] at h
    split at h
    · rename_i ha
      injection h with ho
      subst ho
      subst ha
      exact List.mem_cons_self _ _
    · exact List.mem_cons_of_mem _ (ih h)

theorem JSHeap.find_lt_next {h : JSHeap} (hw : h.wf) {a : Nat} {o : HObj}
    (hf : h.find a = some o) : a < h.next :=
  hw (a, o) (findAddr_mem hf)

theorem JSHeap.wf_alloc {h : JSHeap} (hw : h.wf) (o : HObj) : (h.alloc o).2.wf := by
  intro p hp
  simp only [JSHeap.alloc] at hp ⊢
  rcases List.mem_cons.mp hp with heq | hmem
  · subst heq
    omega
  · exact Nat.lt_succ_of_lt (hw p hmem)

theorem JSHeap.find_alloc_old (h : JSHeap) (o : HObj) {b : Nat} (hb : b < h.next) :
    (h.alloc o).2.find b = h.find b := by
  simp only [JSHeap.alloc, JSHeap.find, findAddr]
  rw [if_neg (by omega)]

theorem JSHeap.find_alloc_new (h : JSHeap) (o : HObj) :
    (h.alloc o).2.find h.next = some o := by
  simp [JSHeap.alloc, JSHeap.find, findAddr]

theorem findAddr_updateAddr_ne {a b : Nat} (o : HObj) (hne : b ≠ a) :
    ∀ (l : List (Nat × HObj)), findAddr b (updateAddr a o l) = findAddr b l := by
  intro l
  induction l with
  | nil => rfl
  | cons p rest ih =>
    obtain ⟨a', o'⟩ := p
    by_cases ha : a' = a
    · have hab : ¬ a' = b := by omega
      simp only [updateAddr, if_pos ha, findAddr, if_neg hab, ih]
    · simp only [updateAddr, if_neg ha, findAddr, ih]

theorem JSHeap.find_update_ne {h : JSHeap} {a b : Nat} (o : HObj) (hne : b ≠ a) :
    (h.update a o).find b = h.find b :=
  findAddr_updateAddr_ne o hne h.objs

theorem optSeq_congr {f g : JSVal → Option JSTree}
    (hfg : ∀ v t, f v = some t → g v = some t) :
    ∀ {l : List JSVal} {ts : List JSTree}, optSeq f l = some ts → optSeq g l = some ts := by
  intro l
  induction l with
  | nil => intro ts h; simpa [optSeq] using h
  | cons v vs ih =>
    intro ts h
    simp only [optSeq] at h ⊢
    cases hf : f v with
    | none => rw [hf] at h; exact absurd h (by simp)
    | some t =>
      rw [hf] at h
      rw [hfg v t hf]
      cases hvs : optSeq f vs with
      | none => rw [hvs] at h; exact absurd h (by simp)
      | some ts' => rw [hvs] at h; rw [ih hvs]; exact h

theorem optFieldsSeq_congr {f g : JSVal → Option JSTree}
    (hfg : ∀ v t, f v = some t → g v = some t) :
    ∀ {l : List (String × JSVal)} {ts : List (String × JSTree)},
      optFieldsSeq f l = some ts → optFieldsSeq g l = some ts := by
  intro l
  induction l with
  | nil => intro ts h; simpa [optFieldsSeq] using h
  | cons p vs ih =>
    intro ts h
    obtain ⟨k, v⟩ := p
    simp only [optFieldsSeq] at h ⊢
    cases hf : f v with
    | none => rw [hf] at h; exact absurd h (by simp)
    | some t =>
      rw [hf] at h
      rw [hfg v t hf]
      cases hvs : optFieldsSeq f vs with
      | none => rw [hvs] at h; exact absurd h (by simp)
      | some ts' => rw [hvs] at h; rw [ih hvs]; exact h

theorem denote_mono : ∀ (fuel : Nat) {h h₂ : JSHeap},
    (∀ a o, h.find a = some o → h₂.find a = some o) →
    ∀ {v : JSVal} {t : JSTree}, denote fuel h v = some t → denote fuel h₂ v = some t := by
  intro fuel
  induction fuel with
  | zero => intro h h₂ hext v t hd; simp [denote] at hd
  | succ n ih =>
    intro h h₂ hext v t hd
    cases v with
    | prim p => simpa [denote] using hd
    | ref a =>
      simp only [denote] at hd ⊢
      cases hfa : h.find a with
      | none => rw [hfa] at hd; exact absurd hd (by simp)
      | some o =>
        rw [hfa] at hd
        rw [hext a o hfa]
        cases o with
        | date td => exact hd
        | arr elems =>
          dsimp only at hd ⊢
          cases hseq : optSeq (fun v' => denote n h v') elems with
          | none => rw [hseq] at hd; exact absurd hd (by simp)
          | some ts =>
            rw [hseq] at hd
            rw [optSeq_congr (fun v t hv => ih hext hv) hseq]
            exact hd
        | obj fields =>
          dsimp only at hd ⊢
          cases hseq : optFieldsSeq (fun v' => denote n h v') fields with
          | none => rw [hseq] at hd; exact absurd hd (by simp)
          | some ts =>
            rw [hseq] at hd
            rw [optFieldsSeq_congr (fun v t hv => ih hext hv) hseq]
            exact hd

theorem deepClone_spec (fuel : Nat) :
    ∀ {h : JSHeap} {v : JSVal} {t : JSTree}, h.wf → denote fuel h v = some t →
      ∃ v' h', CacheService.deepClone fuel h v = some (v', h') ∧
        h'.wf ∧ h.next ≤ h'.next ∧
        (∀ a, a < h.next → h'.find a = h.find a) ∧
        (∀ h₂ : JSHeap, (∀ b, h.next ≤ b → b < h'.next → h₂.find b = h'.find b) →
          denote fuel h₂ v' = some t) := by
  induction fuel with
  | zero =>
    intro h v t _ hd
    simp [denote] at hd
  | succ n ih =>
    have hlist : ∀ (l : List JSVal) (h : JSHeap) (ts : List JSTree), h.wf →
        optSeq (fun v' => denote n h v') l = some ts →
        ∃ l' h', cloneSeq (fun hh vv => CacheService.deepClone n hh vv) h l = some (l', h') ∧
          h'.wf ∧ h.next ≤ h'.next ∧
          (∀ a, a < h.next → h'.find a = h.find a) ∧
          (∀ h₂ : JSHeap, (∀ b, h.next ≤ b → b < h'.next → h₂.find b = h'.find b) →
            optSeq (fun v' => denote n h₂ v') l' = some ts) := by
      intro l
      induction l with
      | nil =>
        intro h ts hw hseq
        simp only [optSeq] at hseq
        injection hseq with hts
        subst hts
        exact ⟨[], h, rfl, hw, le_refl _, fun a _ => rfl, fun h₂ _ => rfl⟩
      | cons v vs ihl =>
        intro h ts hw hseq
        simp only [optSeq] at hseq
        cases hv : denote n h v with
        | none => rw [hv] at hseq; exact absurd hseq (by simp)
        | some t1 =>
          rw [hv] at hseq
          dsimp only at hseq
          cases hvs : optSeq (fun v' => denote n h v') vs with
          | none => rw [hvs] at hseq; exact absurd hseq (by simp)
          | some ts1 =>
            rw [hvs] at hseq
            dsimp only at hseq
            injection hseq with hts
            subst hts
            obtain ⟨v₁, h1, hc1, hw1, hn1, hp1, hq1⟩ := ih hw hv
            have hext1 : ∀ a o, h.find a = some o → h1.find a = some o := by
              intro a o hf
              rw [hp1 a (JSHeap.find_lt_next hw hf)]
              exact hf
            have hvs1 : optSeq (fun v' => denote n h1 v') vs = some ts1 :=
              optSeq_congr (fun v t hv' => denote_mono n hext1 hv') hvs
            obtain ⟨vs₁, h2, hc2, hw2, hn2, hp2, hq2⟩ := ihl h1 ts1 hw1 hvs1
            refine ⟨v₁ :: vs₁, h2, ?_, hw2, le_trans hn1 hn2, ?_, ?_⟩
            · simp only [cloneSeq, hc1]
              rw [hc2]
            · intro a ha
              rw [hp2 a (lt_of_lt_of_le ha hn1), hp1 a ha]
            · intro h₂ hagree
              have hd1 : denote n h₂ v₁ = some t1 := by
                apply hq1
                intro b hb1 hb2
                rw [hagree b hb1 (lt_of_lt_of_le hb2 hn2)]
                exact hp2 b hb2
              have hd2 : optSeq (fun v' => denote n h₂ v') vs₁ = some ts1 := by
                apply hq2
                intro b hb1 hb2
                exact hagree b (le_trans hn1 hb1) hb2
              simp only [optSeq, hd1]
              rw [hd2]
    have hfields : ∀ (l : List (String × JSVal)) (h : JSHeap)
        (ts : List (String × JSTree)), h.wf →
        optFieldsSeq (fun v' => denote n h v') l = some ts →
        ∃ l' h', cloneFieldsSeq (fun hh vv => CacheService.deepClone n hh vv) h l
            = some (l', h') ∧
          h'.wf ∧ h.next ≤ h'.next ∧
          (∀ a, a < h.next → h'.find a = h.find a) ∧
          (∀ h₂ : JSHeap, (∀ b, h.next ≤ b → b < h'.next → h₂.find b = h'.find b) →
            optFieldsSeq (fun v' => denote n h₂ v') l' = some ts) := by
      intro l
      induction l with
      | nil =>
        intro h ts hw hseq
        simp only [optFieldsSeq] at hseq
        injection hseq with hts
        subst hts
        exact ⟨[], h, rfl, hw, le_refl _, fun a _ => rfl, fun h₂ _ => rfl⟩
      | cons p vs ihl =>
        intro h ts hw hseq
        obtain ⟨key, v⟩ := p
        simp only [optFieldsSeq] at hseq
        cases hv : denote n h v with
        | none => rw [hv] at hseq; exact absurd hseq (by simp)
        | some t1 =>
          rw [hv] at hseq
          dsimp only at hseq
          cases hvs : optFieldsSeq (fun v' => denote n h v') vs with
          | none => rw [hvs] at hseq; exact absurd hseq (by simp)
          | some ts1 =>
            rw [hvs] at hseq
            dsimp only at hseq
            injection hseq with hts
            subst hts
            obtain ⟨v₁, h1, hc1, hw1, hn1, hp1, hq1⟩ := ih hw hv
            have hext1 : ∀ a o, h.find a = some o → h1.find a = some o := by
              intro a o hf
              rw [hp1 a (JSHeap.find_lt_next hw hf)]
              exact hf
            have hvs1 : optFieldsSeq (fun v' => denote n h1 v') vs = some ts1 :=
              optFieldsSeq_congr (fun v t hv' => denote_mono n hext1 hv') hvs
            obtain ⟨vs₁, h2, hc2, hw2, hn2, hp2, hq2⟩ := ihl h1 ts1 hw1 hvs1
            refine ⟨(key, v₁) :: vs₁, h2, ?_, hw2, le_trans hn1 hn2, ?_, ?_⟩
            · simp only [cloneFieldsSeq, hc1]
              rw [hc2]
            · intro a ha
              rw [hp2 a (lt_of_lt_of_le ha hn1), hp1 a ha]
            · intro h₂ hagree
              have hd1 : denote n h₂ v₁ = some t1 := by
                apply hq1
                intro b hb1 hb2
                rw [hagree b hb1 (lt_of_lt_of_le hb2 hn2)]
                exact hp2 b hb2
              have hd2 : optFieldsSeq (fun v' => denote n h₂ v') vs₁ = some ts1 := by
                apply hq2
                intro b hb1 hb2
                exact hagree b (le_trans hn1 hb1) hb2
              simp only [optFieldsSeq, hd1]
              rw [hd2]
    intro h v t hw hd
    cases v with
    | prim p =>
      simp only [denote] at hd
      injection hd with ht
      subst ht
      exact ⟨.prim p, h, rfl, hw, le_refl _, fun a _ => rfl, fun h₂ _ => by simp [denote]⟩
    | ref a =>
      simp only [denote] at hd
      cases hfa : h.find a with
      | none => rw [hfa] at hd; exact absurd hd (by simp)
      | some o =>
        rw [hfa] at hd
        have halt := JSHeap.find_lt_next hw hfa
        cases o with
        | date td =>
          dsimp only at hd
          injection hd with ht
          subst ht
          refine ⟨.ref h.next, (h.alloc (.date td)).2, ?_, JSHeap.wf_alloc hw _, ?_, ?_, ?_⟩
          · simp only [CacheService.deepClone, hfa]
            rfl
          · simp [JSHeap.alloc]
          · intro b hb
            exact JSHeap.find_alloc_old h _ hb
          · intro h₂ hagree
            have hfind : h₂.find h.next = some (.date td) := by
              rw [hagree h.next (le_refl _) (by simp [JSHeap.alloc])]
              exact JSHeap.find_alloc_new h _
            simp only [denote, hfind]
        | arr elems =>
          dsimp only at hd
          cases hseq : optSeq (fun v' => denote n h v') elems with
          | none => rw [hseq] at hd; exact absurd hd (by simp)
          | some ts1 =>
            rw [hseq] at hd
            dsimp only at hd
            injection hd with ht
            subst ht
            obtain ⟨elems', h1, hc, hw1, hn1, hp1, hq⟩ := hlist elems h ts1 hw hseq
            refine ⟨.ref h1.next, (h1.alloc (.arr elems')).2, ?_,
              JSHeap.wf_alloc hw1 _, ?_, ?_, ?_⟩
            · simp only [CacheService.deepClone, hfa]
              rw [hc]
              rfl
            · have h2 : h1.next ≤ (h1.alloc (.arr elems')).2.next := by
                simp [JSHeap.alloc]
              exact le_trans hn1 h2
            · intro b hb
              rw [JSHeap.find_alloc_old h1 _ (lt_of_lt_of_le hb hn1), hp1 b hb]
            · intro h₂ hagree
              have hfind : h₂.find h1.next = some (.arr elems') := by
                rw [hagree h1.next hn1 (by simp [JSHeap.alloc])]
                exact JSHeap.find_alloc_new h1 _
              have hden : optSeq (fun v' => denote n h₂ v') elems' = some ts1 := by
                apply hq
                intro b hb1 hb2
                rw [hagree b hb1 (by simp only [JSHeap.alloc]; omega)]
                exact JSHeap.find_alloc_old h1 _ hb2
              simp only [denote, hfind]
              rw [hden]
        | obj fields =>
          dsimp only at hd
          cases hseq : optFieldsSeq (fun v' => denote n h v') fields with
          | none => rw [hseq] at hd; exact absurd hd (by simp)
          | some ts1 =>
            rw [hseq] at hd
            dsimp only at hd
            injection hd with ht
            subst ht
            obtain ⟨fields', h1, hc, hw1, hn1, hp1, hq⟩ := hfields fields h ts1 hw hseq
            refine ⟨.ref h1.next, (h1.alloc (.obj fields')).2, ?_,
              JSHeap.wf_alloc hw1 _, ?_, ?_, ?_⟩
            · simp only [CacheService.deepClone, hfa]
              rw [hc]
              rfl
            · have h2 : h1.next ≤ (h1.alloc (.obj fields')).2.next := by
                simp [JSHeap.alloc]
              exact le_trans hn1 h2
            · intro b hb
              rw [JSHeap.find_alloc_old h1 _ (lt_of_lt_of_le hb hn1), hp1 b hb]
            · intro h₂ hagree
              have hfind : h₂.find h1.next = some (.obj fields') := by
                rw [hagree h1.next hn1 (by simp [JSHeap.alloc])]
                exact JSHeap.find_alloc_new h1 _
              have hden : optFieldsSeq (fun v' => denote n h₂ v') fields' = some ts1 := by
                apply hq
                intro b hb1 hb2
                rw [hagree b hb1 (by simp only [JSHeap.alloc]; omega)]
                exact JSHeap.find_alloc_old h1 _ hb2
              simp only [denote, hfind]
              rw [hden]

theorem CacheService.findEntry_assignKey_self (k : String) (e : CacheEntry α) :
    ∀ (l : List (String × CacheEntry α)),
      CacheService.findEntry k (CacheService.assignKey k e l) = some e := by
  intro l
  induction l with
  | nil => simp [CacheService.assignKey, CacheService.findEntry]
  | cons p rest ih =>
    obtain ⟨k', e'⟩ := p
    by_cases hk : k' = k
    · simp [CacheService.assignKey, if_pos hk, CacheService.findEntry]
    · simp only [CacheService.assignKey, if_neg hk, CacheService.findEntry, ih]

/-- Claim C5: storing a well-formed value and immediately reading it back
yields a value denoting the same tree as the original (deep equality), and
that tree is unchanged by any subsequent in-place mutation of an object that
existed before the set, because both set and get insert deep clones built
entirely from fresh heap objects. -/
theorem cache_deep_copy_isolation (fuel : Nat) (k : String) (v : JSVal)
    (ttl now : Nat) (st : CacheState JSVal) (h : JSHeap) (t : JSTree)
    (hw : h.wf) (hk : k ≠ "") (_httl : 0 < ttl) (hden : denote fuel h v = some t) :
    ∃ st₁ h₁, CacheService.setH fuel k v ttl now st h = (none, st₁, h₁) ∧
      ∃ w st₂ h₂, CacheService.getH fuel k now st₁ h₁ = (some w, st₂, h₂) ∧
        denote fuel h₂ w = some t ∧
        (∀ a, a < h.next → ∀ o, denote fuel (h₂.update a o) w = some t) := by
  obtain ⟨v₁, h₁, hc1, hw1, hn1, hp1, hq1⟩ := deepClone_spec fuel hw hden
  have hset : CacheService.setH fuel k v ttl now st h =
      (none, ⟨CacheService.assignKey k ⟨v₁, now + ttl * 1000⟩
        (if 1000 ≤ st.cache.length then CacheService.evictOldest st else st).cache⟩, h₁) := by
    simp only [CacheService.setH, if_neg hk, hc1]
  have hden1 : denote fuel h₁ v₁ = some t := hq1 h₁ (fun _ _ _ => rfl)
  obtain ⟨w, h₂, hc2, hw2, hn2, hp2, hq2⟩ := deepClone_spec fuel hw1 hden1
  have hfe : CacheService.findEntry k (CacheService.assignKey k ⟨v₁, now + ttl * 1000⟩
      (if 1000 ≤ st.cache.length then CacheService.evictOldest st else st).cache) =
      some ⟨v₁, now + ttl * 1000⟩ :=
    CacheService.findEntry_assignKey_self k _ _
  have hget : CacheService.getH fuel k now
      ⟨CacheService.assignKey k ⟨v₁, now + ttl * 1000⟩
        (if 1000 ≤ st.cache.length then CacheService.evictOldest st else st).cache⟩ h₁ =
      (some w, ⟨CacheService.assignKey k ⟨v₁, now + ttl * 1000⟩
        (if 1000 ≤ st.cache.length then CacheService.evictOldest st else st).cache⟩, h₂) := by
    simp only [CacheService.getH, if_neg hk, hfe]
    rw [if_neg (by simp), hc2]
  refine ⟨_, h₁, hset, w, _, h₂, hget, hq2 h₂ (fun _ _ _ => rfl), ?_⟩
  intro a ha o
  apply hq2
  intro b hb1 hb2
  apply JSHeap.find_update_ne
  omega

/-- Witness for C5, at a primitive string value in an empty heap. -/
theorem cache_deep_copy_isolation_witness :
    ∃ st₁ h₁, CacheService.setH 1 "k" (.prim (.str "x")) 1 0 (⟨[]⟩ : CacheState JSVal)
        ⟨[], 0⟩ = (none, st₁, h₁) ∧
      ∃ w st₂ h₂, CacheService.getH 1 "k" 0 st₁ h₁ = (some w, st₂, h₂) ∧
        denote 1 h₂ w = some (.prim (.str "x")) ∧
        (∀ a, a < (⟨[], 0⟩ : JSHeap).next → ∀ o,
          denote 1 (h₂.update a o) w = some (.prim (.str "x"))) :=
  cache_deep_copy_isolation 1 "k" (.prim (.str "x")) 1 0 ⟨[]⟩ ⟨[], 0⟩ (.prim (.str "x"))
    (by intro p hp; simp at hp) (by decide) (by decide) rfl
